import Mathlib

/-!
# Verification of the SurrealDB addressing and cancellation core

A shallow embedding of:
  * the key codec (`src/lib/src/key/thing.rs`),
  * the resource / range model (`src/lib/src/api/opt/resource.rs`),
  * the cancellation token (`src/lib/src/ctx/canceller.rs`),
together with proofs of the contracts stated for them.

Definitions come first, theorems afterwards.
-/

namespace SDB

/-! ## Key codec (`src/lib/src/key/thing.rs`): definitions -/

namespace Key

/-- A byte sequence (each entry is one byte, `< 256` for valid data). -/
abbrev Bytes := List Nat

/-- The key-level `Thing` struct of `src/lib/src/key/thing.rs`.  The marker
fields `__ = 0x2f` and `_a … _d = 0x2a` of the Rust struct are the fixed
constants assigned by `Thing::new`, so only the four data fields vary; they
are modelled as the UTF-8 byte sequences of the Rust strings (`Thing::new`
receives all four fields, the record id included, as strings). -/
structure Thing where
  ns : Bytes
  db : Bytes
  tb : Bytes
  id : Bytes
deriving DecidableEq, Repr

/-- Modelled from the spec: `storekey::serialize`, which `Thing::encode`
delegates to, is not under `src/`.  Per §4.1/§6 the output is the fixed
layout `[0x2f][0x2a][ns][0x2a][db][0x2a][tb][0x2a][id]` (marker bytes in
struct-field order), where each string field follows the terminator
discipline: its raw bytes followed by the `0x00` terminator, so a valid
field contains no `0x00` byte. -/
def Thing.encode (t : Thing) : Bytes :=
  0x2f :: 0x2a ::
    (t.ns ++ 0 :: 0x2a ::
      (t.db ++ 0 :: 0x2a ::
        (t.tb ++ 0 :: 0x2a ::
          (t.id ++ [0]))))

/-- Consume one nul-terminated field: the bytes before the first `0x00`,
and the remainder after it.  Fails when no terminator is found. -/
def takeField : Bytes → Option (Bytes × Bytes)
  | [] => none
  | b :: rest =>
    if b = 0 then some ([], rest)
    else
      match takeField rest with
      | some (f, r) => some (b :: f, r)
      | none => none

/-- Consume one expected marker byte, failing on a mismatch. -/
def expectByte (m : Nat) : Bytes → Option Bytes
  | [] => none
  | b :: rest => if b = m then some rest else none

/-- Modelled from the spec: `storekey::deserialize`, which `Thing::decode`
delegates to, is not under `src/`.  Per §4.1/§7 decode fails with a
`CorruptKey` error — modelled as `none` — whenever the byte sequence does
not match the fixed layout (wrong marker, truncated field, trailing
bytes). -/
def Thing.decode (v : Bytes) : Option Thing :=
  (expectByte 0x2f v).bind fun r0 =>
  (expectByte 0x2a r0).bind fun r1 =>
  (takeField r1).bind fun ns_r2 =>
  (expectByte 0x2a ns_r2.2).bind fun r3 =>
  (takeField r3).bind fun db_r4 =>
  (expectByte 0x2a db_r4.2).bind fun r5 =>
  (takeField r5).bind fun tb_r6 =>
  (expectByte 0x2a tb_r6.2).bind fun r7 =>
  (takeField r7).bind fun id_r8 =>
  match id_r8.2 with
  | [] => some ⟨ns_r2.1, db_r4.1, tb_r6.1, id_r8.1⟩
  | _ :: _ => none

/-- A field respects the terminator discipline: bytes are nonzero
(no embedded terminator) and genuinely bytes. -/
def ValidField (s : Bytes) : Prop := ∀ b ∈ s, 0 < b ∧ b < 256

instance : DecidablePred ValidField := fun s =>
  inferInstanceAs (Decidable (∀ b ∈ s, 0 < b ∧ b < 256))

/-- A valid `Thing` per §3: namespace, database and table are non-empty and
colon-free (`0x3a` is the reserved separator), and every field respects the
terminator discipline of the encoding (§4.1). -/
def ValidThing (t : Thing) : Prop :=
  ValidField t.ns ∧ ValidField t.db ∧ ValidField t.tb ∧ ValidField t.id ∧
    t.ns ≠ [] ∧ t.db ≠ [] ∧ t.tb ≠ [] ∧
    0x3a ∉ t.ns ∧ 0x3a ∉ t.db ∧ 0x3a ∉ t.tb

instance : DecidablePred ValidThing := fun t =>
  inferInstanceAs (Decidable (ValidField t.ns ∧ ValidField t.db ∧
    ValidField t.tb ∧ ValidField t.id ∧ t.ns ≠ [] ∧ t.db ≠ [] ∧
    t.tb ≠ [] ∧ 0x3a ∉ t.ns ∧ 0x3a ∉ t.db ∧ 0x3a ∉ t.tb))

/-- The fields of a Thing contain no `0x00` byte (the part of validity the
decoder can observe: decoding can never produce a field with an embedded
terminator). -/
def NulFreeThing (t : Thing) : Prop :=
  (∀ b ∈ t.ns, b ≠ 0) ∧ (∀ b ∈ t.db, b ≠ 0) ∧
    (∀ b ∈ t.tb, b ≠ 0) ∧ (∀ b ∈ t.id, b ≠ 0)

instance : DecidablePred NulFreeThing := fun t =>
  inferInstanceAs (Decidable ((∀ b ∈ t.ns, b ≠ 0) ∧ (∀ b ∈ t.db, b ≠ 0) ∧
    (∀ b ∈ t.tb, b ≠ 0) ∧ (∀ b ∈ t.id, b ≠ 0)))

/-- Byte-lexicographic order on byte sequences: the order the underlying
key-value store compares keys with. -/
def bytesLt (x y : Bytes) : Prop := List.Lex (· < ·) x y

/-- Tuple order on Things: by namespace, then database, then table, then
id, each field compared byte-lexicographically (Rust string order). -/
def Thing.tupleLt (t1 t2 : Thing) : Prop :=
  bytesLt t1.ns t2.ns ∨
    (t1.ns = t2.ns ∧ (bytesLt t1.db t2.db ∨
      (t1.db = t2.db ∧ (bytesLt t1.tb t2.tb ∨
        (t1.tb = t2.tb ∧ bytesLt t1.id t2.id)))))

/-- The positions of the five marker bytes inside `Thing.encode t`:
the leading `0x2f`, the `0x2a` before `ns`, and the `0x2a` after each of
the `ns`, `db` and `tb` terminators. -/
def markerPositions (t : Thing) : List Nat :=
  [0, 1, t.ns.length + 3, t.ns.length + t.db.length + 5,
    t.ns.length + t.db.length + t.tb.length + 7]

/-- `impl From<Thing> for Vec<u8>` of `src/lib/src/key/thing.rs`: calls
`val.encode().unwrap()`.  Encoding is total, so the unwrap never panics. -/
def vecFromThing (t : Thing) : Bytes := t.encode

/-- `impl From<Vec<u8>> for Thing` of `src/lib/src/key/thing.rs`: calls
`Thing::decode(&val).unwrap()`.  The unwrap panics when decoding fails;
the `none` result models that panic. -/
def thingFromVec (v : Bytes) : Option Thing := Thing.decode v

end Key

/-! ## External `sql` value types used by the resource model.

`crate::sql` is not under `src/`; these are modelled from the spec (§3). -/

namespace Sql

/-- Modelled from the spec: the identifier tagged union `Id` (§3) —
Number | Text | Object (ordered key→value map) | Array. -/
inductive Id where
  | Number : Int → Id
  | Text : String → Id
  | Object : List (String × Id) → Id
  | Array : List Id → Id

/-- Modelled from the spec: `sql::Table`, a table name newtype. -/
structure Table where
  name : String
deriving DecidableEq

/-- Modelled from the spec: `sql::Thing`, the record address `table:id`
held by `Resource::RecordId`. -/
structure Thing where
  tb : String
  id : Id

/-- Modelled from the spec: `sql::Object`, an ordered key→value map
literal. -/
structure Object where
  pairs : List (String × Id)

/-- Modelled from the spec: `sql::Array`, a sequence literal. -/
structure Array where
  items : List Id

/-- Modelled from the spec: the direction of an edge set. -/
inductive Dir where
  | dIn
  | dOut
  | dBoth
deriving DecidableEq

/-- Modelled from the spec: `sql::Edges` — the graph edges incident to a
record (§3): a `Thing`, a direction, and a table filter. -/
structure Edges where
  source : Thing
  dir : Dir
  tables : List String

/-- `std::ops::Bound`, the bound of a range endpoint. -/
inductive Bound (α : Type) where
  | Included : α → Bound α
  | Excluded : α → Bound α
  | Unbounded : Bound α

/-- Modelled from the spec: `sql::Range`, the scan descriptor
`{table, start_bound, end_bound}` produced by `with_range` (§4.2). -/
structure Range where
  tb : String
  beg : Bound Id
  «end» : Bound Id

/-- Modelled from the spec: the subset of the `sql::Value` universe this
core produces — one variant per `Resource` variant plus the range scan
descriptor. -/
inductive Value where
  | table : Table → Value
  | thing : Thing → Value
  | object : Object → Value
  | array : Array → Value
  | edges : Edges → Value
  | range : Range → Value

/-- Split a character list at its first colon: the part before it and the
whole remainder after it (Rust `str::split_once(':')`). -/
def splitOnceColon : List Char → Option (List Char × List Char)
  | [] => none
  | c :: rest =>
    if c = ':' then some ([], rest)
    else
      match splitOnceColon rest with
      | some (t, i) => some (c :: t, i)
      | none => none

/-- Modelled from the spec: the record-address parser `sql::thing` is an
external collaborator (§6, "a record-address parser (`table:id` textual
syntax)") not under `src/`.  It accepts strings of the shape `table:id`
with non-empty table and id parts, splitting at the first colon; the id is
carried as a text identifier. -/
def thingParse (s : String) : Option Thing :=
  match splitOnceColon s.toList with
  | none => none
  | some (table, id) =>
    if table = [] ∨ id = [] then none
    else some ⟨String.mk table, .Text (String.mk id)⟩

end Sql

/-! ## Resource model (`src/lib/src/api/opt/resource.rs`): definitions -/

namespace Api

/-- Modelled from the spec: the error variants of `crate::api::err::Error`
used by this core (§7); the error enum itself is not under `src/`. -/
inductive Error where
  | RangeOnRecordId : Sql.Thing → Error
  | RangeOnObject : Sql.Object → Error
  | RangeOnArray : Sql.Array → Error
  | RangeOnEdges : Sql.Edges → Error
  | TableColonId : String → String → Error

/-- `Resource` of `src/lib/src/api/opt/resource.rs`: a database resource. -/
inductive Resource where
  | Table : Sql.Table → Resource
  | RecordId : Sql.Thing → Resource
  | Object : Sql.Object → Resource
  | Array : Sql.Array → Resource
  | Edges : Sql.Edges → Resource

/-- `Range<T>` of `src/lib/src/api/opt/resource.rs`: the `start` and `end`
bounds of a range query. -/
structure Range (α : Type) where
  start : Sql.Bound α
  «end» : Sql.Bound α

/-- `Resource::with_range` of `src/lib/src/api/opt/resource.rs`: only a
`Table` accepts a range, yielding the `sql::Range` scan descriptor; every
other variant fails with its variant-specific error. -/
def Resource.with_range (r : Resource) (range : Range Sql.Id) :
    Except Error Sql.Value :=
  match r with
  | .Table ⟨table⟩ => .ok (.range ⟨table, range.start, range.«end»⟩)
  | .RecordId record_id => .error (.RangeOnRecordId record_id)
  | .Object object => .error (.RangeOnObject object)
  | .Array array => .error (.RangeOnArray array)
  | .Edges edges => .error (.RangeOnEdges edges)

/-- `impl From<&str> for Resource`: try the record-address parser first;
on success the result is `RecordId`, otherwise `Table` carrying the string
(`s.into()`).  This conversion is infallible. -/
def Resource.fromStr (s : String) : Resource :=
  match Sql.thingParse s with
  | some thing => .RecordId thing
  | none => .Table ⟨s⟩

/-- `impl From<String> for Resource`: same logic as `From<&str>`, written
separately in the source. -/
def Resource.fromString (s : String) : Resource :=
  match Sql.thingParse s with
  | some thing => .RecordId thing
  | none => .Table ⟨s⟩

/-- `impl From<&String> for Resource`: delegates to the `&str`
conversion. -/
def Resource.fromStringRef (s : String) : Resource :=
  Resource.fromStr s

/-- `blacklist_colon` of `src/lib/src/api/opt/resource.rs`: reject any
input containing a colon with `TableColonId{table, id}`, where `table`/`id`
are the two halves of `split_once(':')`.  The Rust code checks
`input.contains(':')` and then unwraps `split_once`; the unreachable
`none` branch of the inner match models that unwrap. -/
def blacklist_colon (input : String) : Except Error Unit :=
  if ':' ∈ input.toList then
    match Sql.splitOnceColon input.toList with
    | some (table, id) =>
      .error (.TableColonId (String.mk table) (String.mk id))
    | none => .ok ()
  else
    .ok ()

/-- `impl IntoResource<Vec<R>> for &str`: the bare-table string
conversion — colon-checked, then `Table` carrying the string unchanged. -/
def strIntoResourceVec (s : String) : Except Error Resource :=
  match blacklist_colon s with
  | .error e => .error e
  | .ok _ => .ok (.Table ⟨s⟩)

/-- `impl IntoResource<Vec<R>> for String`: same bare-table conversion,
written separately in the source. -/
def stringIntoResourceVec (s : String) : Except Error Resource :=
  match blacklist_colon s with
  | .error e => .error e
  | .ok _ => .ok (.Table ⟨s⟩)

/-- `std::ops::Range`, a half-open `start..end` pair. -/
structure OpsRange (α : Type) where
  start : α
  «end» : α

/-- `std::ops::RangeInclusive`, a closed `start..=end` pair. -/
structure OpsRangeInclusive (α : Type) where
  start : α
  «end» : α

/-- `std::ops::RangeFull`, the unbounded `..`. -/
structure OpsRangeFull where

/-- `impl From<ops::Range<T>> for Range<Id>` where `T: Into<Id>`; the
`Into<Id>` conversion is the explicit function `f`. -/
def Range.fromOpsRange {α : Type} (f : α → Sql.Id) (r : OpsRange α) :
    Range Sql.Id :=
  { start := .Included (f r.start), «end» := .Excluded (f r.«end») }

/-- `impl From<ops::RangeInclusive<T>> for Range<Id>`. -/
def Range.fromOpsRangeInclusive {α : Type} (f : α → Sql.Id)
    (r : OpsRangeInclusive α) : Range Sql.Id :=
  { start := .Included (f r.start), «end» := .Included (f r.«end») }

/-- `impl From<ops::RangeFull> for Range<Id>`. -/
def Range.fromOpsRangeFull (_r : OpsRangeFull) : Range Sql.Id :=
  { start := .Unbounded, «end» := .Unbounded }

end Api

/-! ## Cancellation token (`src/lib/src/ctx/canceller.rs`): definitions -/

namespace Ctx

/-- `Canceller::cancel` of `src/lib/src/ctx/canceller.rs`: the single
shared `Arc<AtomicBool>` flag is modelled as explicit state of type
`Bool`; `cancel` stores `true` regardless of the current value. -/
def Canceller.cancel (cancelled : Bool) : Bool :=
  let _ := cancelled
  true

/-- An operation on the shared flag: a `cancel()` by any handle holding a
clone of the `Canceller` (they all reference the same `Arc`), or a load by
any reader of the shared flag. -/
inductive Op where
  | cancel
  | load
deriving DecidableEq

/-- One step over the shared flag: `cancel` performs
`Canceller::cancel`'s store, a load leaves the flag unchanged (what the
load observes is the state it runs in). -/
def applyOp (s : Bool) : Op → Bool
  | .cancel => Canceller.cancel s
  | .load => s

/-- The state of the shared flag after a sequence of operations. -/
def runFlag (s : Bool) (ops : List Op) : Bool :=
  ops.foldl applyOp s

end Ctx

/-! ## Theorems -/

namespace Key

theorem takeField_append {s : Bytes} (hs : ∀ b ∈ s, b ≠ 0) (r : Bytes) :
    takeField (s ++ 0 :: r) = some (s, r) := by
  induction s with
  | nil => simp [takeField]
  | cons b s ih =>
    have hb : b ≠ 0 := hs b (List.mem_cons_self b s)
    have ih' := ih (fun c hc => hs c (List.mem_cons_of_mem b hc))
    simp [takeField, hb, ih']

theorem validField_ne_zero {s : Bytes} (h : ValidField s) : ∀ b ∈ s, b ≠ 0 :=
  fun b hb => Nat.pos_iff_ne_zero.mp (h b hb).1

theorem validThing_nulFree {t : Thing} (h : ValidThing t) :
    NulFreeThing t := by
  obtain ⟨hns, hdb, htb, hid, -, -, -, -, -, -⟩ := h
  exact ⟨validField_ne_zero hns, validField_ne_zero hdb,
    validField_ne_zero htb, validField_ne_zero hid⟩

/-- Evaluating `decode` on an encoding followed by arbitrary junk: it
succeeds exactly when the junk is empty. -/
theorem decode_encode_append (t : Thing) (h : NulFreeThing t) (r : Bytes) :
    Thing.decode (Thing.encode t ++ r) =
      (if r = [] then some t else none) := by
  obtain ⟨hns, hdb, htb, hid⟩ := h
  have ens := takeField_append hns
  have edb := takeField_append hdb
  have etb := takeField_append htb
  have eid := takeField_append hid
  simp only [Thing.encode, List.cons_append, List.append_assoc]
  cases r with
  | nil =>
    simp [Thing.decode, expectByte, Option.bind, ens, edb, etb, eid]
  | cons c r =>
    simp [Thing.decode, expectByte, Option.bind, ens, edb, etb, eid]

/-- Round trip for valid Things. -/
theorem decode_encode (t : Thing) (h : ValidThing t) :
    Thing.decode (Thing.encode t) = some t := by
  have := decode_encode_append t (validThing_nulFree h) []
  simpa using this

/-- `C1`: for every valid `Thing` `t`, `Thing::decode (Thing::encode t)`
returns `t`, and `Thing::encode` is injective on valid Things: distinct
valid Things never share an encoding. -/
theorem thing_encode_roundtrip_and_injective (t t1 t2 : Thing)
    (h : ValidThing t) (h1 : ValidThing t1) (h2 : ValidThing t2) :
    Thing.decode (Thing.encode t) = some t ∧
      (Thing.encode t1 = Thing.encode t2 → t1 = t2) := by
  refine ⟨decode_encode t h, fun he => ?_⟩
  have e1 := decode_encode t1 h1
  have e2 := decode_encode t2 h2
  rw [he, e2] at e1
  exact (Option.some_inj.mp e1).symm

theorem expectByte_sound {m : Nat} {v r : Bytes}
    (h : expectByte m v = some r) : v = m :: r := by
  cases v with
  | nil => simp [expectByte] at h
  | cons b rest =>
    by_cases hb : b = m
    · subst hb
      simp [expectByte] at h
      rw [h]
    · simp [expectByte, hb] at h

theorem takeField_sound : ∀ {v f r : Bytes}, takeField v = some (f, r) →
    v = f ++ 0 :: r ∧ ∀ b ∈ f, b ≠ 0 := by
  intro v
  induction v with
  | nil => intro f r h; simp [takeField] at h
  | cons b rest ih =>
    intro f r h
    by_cases hb : b = 0
    · subst hb
      simp [takeField] at h
      obtain ⟨hf, hr⟩ := h
      subst hf; subst hr
      exact ⟨rfl, by simp⟩
    · rw [takeField] at h
      simp only [hb, if_false] at h
      cases htf : takeField rest with
      | none => rw [htf] at h; simp at h
      | some p =>
        obtain ⟨f', r'⟩ := p
        rw [htf] at h
        simp only [Option.some_inj, Prod.mk.injEq] at h
        obtain ⟨hf, hr⟩ := h
        obtain ⟨hv, hnf⟩ := ih htf
        subst hf; subst hr; subst hv
        refine ⟨by simp, ?_⟩
        intro c hc
        rcases List.mem_cons.mp hc with hc | hc
        · rw [hc]; exact hb
        · exact hnf c hc

/-- Soundness of `decode`: a successful decode means the input was exactly
the encoding of the result, and the result's fields are nul-free. -/
theorem decode_sound : ∀ {v : Bytes} {t : Thing},
    Thing.decode v = some t → v = t.encode ∧ NulFreeThing t := by
  intro v t h
  rw [Thing.decode] at h
  cases e0 : expectByte 0x2f v with
  | none => rw [e0, Option.none_bind] at h; simp at h
  | some r0 =>
  rw [e0, Option.some_bind] at h
  cases e1 : expectByte 0x2a r0 with
  | none => rw [e1, Option.none_bind] at h; simp at h
  | some r1 =>
  rw [e1, Option.some_bind] at h
  cases e2 : takeField r1 with
  | none => rw [e2, Option.none_bind] at h; simp at h
  | some p2 =>
  obtain ⟨ns, r2⟩ := p2
  rw [e2, Option.some_bind] at h
  cases e3 : expectByte 0x2a r2 with
  | none => rw [show ((ns, r2).2 : Bytes) = r2 from rfl, e3,
      Option.none_bind] at h; simp at h
  | some r3 =>
  rw [show ((ns, r2).2 : Bytes) = r2 from rfl, e3, Option.some_bind] at h
  cases e4 : takeField r3 with
  | none => rw [e4, Option.none_bind] at h; simp at h
  | some p4 =>
  obtain ⟨db, r4⟩ := p4
  rw [e4, Option.some_bind] at h
  cases e5 : expectByte 0x2a r4 with
  | none => rw [show ((db, r4).2 : Bytes) = r4 from rfl, e5,
      Option.none_bind] at h; simp at h
  | some r5 =>
  rw [show ((db, r4).2 : Bytes) = r4 from rfl, e5, Option.some_bind] at h
  cases e6 : takeField r5 with
  | none => rw [e6, Option.none_bind] at h; simp at h
  | some p6 =>
  obtain ⟨tb, r6⟩ := p6
  rw [e6, Option.some_bind] at h
  cases e7 : expectByte 0x2a r6 with
  | none => rw [show ((tb, r6).2 : Bytes) = r6 from rfl, e7,
      Option.none_bind] at h; simp at h
  | some r7 =>
  rw [show ((tb, r6).2 : Bytes) = r6 from rfl, e7, Option.some_bind] at h
  cases e8 : takeField r7 with
  | none => rw [e8, Option.none_bind] at h; simp at h
  | some p8 =>
  obtain ⟨id, r8⟩ := p8
  rw [e8, Option.some_bind] at h
  cases r8 with
  | cons c r9 => simp at h
  | nil =>
  simp only [Option.some_inj] at h
  obtain ⟨hv1, hn1⟩ := takeField_sound e2
  obtain ⟨hv2, hn2⟩ := takeField_sound e4
  obtain ⟨hv3, hn3⟩ := takeField_sound e6
  obtain ⟨hv4, hn4⟩ := takeField_sound e8
  have hv0 := expectByte_sound e0
  have hv0' := expectByte_sound e1
  have hv2' := expectByte_sound e3
  have hv4' := expectByte_sound e5
  have hv6' := expectByte_sound e7
  subst h
  constructor
  · rw [hv0, hv0', hv1, hv2', hv2, hv4', hv3, hv6', hv4]
    simp [Thing.encode]
  · exact ⟨hn1, hn2, hn3, hn4⟩

theorem getD_append_len (l1 : Bytes) (x : Nat) (l2 : Bytes) :
    (l1 ++ x :: l2).getD l1.length 0 = x := by
  induction l1 with
  | nil => rfl
  | cons a l1 ih =>
    rw [List.cons_append, List.length_cons, List.getD_cons_succ]
    exact ih

theorem set_append_len (l1 : Bytes) (x c : Nat) (l2 : Bytes) :
    (l1 ++ x :: l2).set l1.length c = l1 ++ c :: l2 := by
  induction l1 with
  | nil => rfl
  | cons a l1 ih =>
    rw [List.cons_append, List.length_cons, List.set_cons_succ,
      List.cons_append, ih]

/-- `C6`: decode rejects corruption — for a valid Thing, every proper
prefix of the encoding fails to decode (truncation), and changing any one
of the five marker bytes to a different value makes decoding fail
(`CorruptKey`, modelled as `none`); decode never silently returns a
wrong-but-valid Thing on such corrupted input. -/
theorem thing_decode_rejects_corruption (t : Thing) (h : ValidThing t) :
    (∀ n, n < t.encode.length → Thing.decode (t.encode.take n) = none) ∧
    (∀ i ∈ markerPositions t, ∀ c, c ≠ t.encode.getD i 0 →
      Thing.decode (t.encode.set i c) = none) := by
  obtain ⟨hns, hdb, htb, hid⟩ := validThing_nulFree h
  constructor
  · intro n hn
    cases hdec : Thing.decode (t.encode.take n) with
    | none => rfl
    | some t' =>
      exfalso
      obtain ⟨hv, hnf'⟩ := decode_sound hdec
      have hsplit : t.encode = t'.encode ++ t.encode.drop n := by
        conv_lhs => rw [← List.take_append_drop n t.encode]
        rw [hv]
      have hdrop : t.encode.drop n ≠ [] := by
        intro hc
        have := List.drop_eq_nil_iff.mp hc
        omega
      have h1 : Thing.decode t.encode = some t := decode_encode t h
      have h2 : Thing.decode (t'.encode ++ t.encode.drop n) = none := by
        rw [decode_encode_append t' hnf' _]
        simp [hdrop]
      rw [hsplit, h2] at h1
      exact Option.noConfusion h1
  · intro i hi c hc
    simp only [markerPositions, List.mem_cons, List.not_mem_nil,
      or_false] at hi
    rcases hi with rfl | rfl | rfl | rfl | rfl
    · rw [show t.encode.getD 0 0 = 0x2f from rfl] at hc
      simp [Thing.encode, Thing.decode, expectByte, hc]
    · rw [show t.encode.getD 1 0 = 0x2a from by simp [Thing.encode]] at hc
      simp [Thing.encode, Thing.decode, expectByte, hc]
    · have he : t.encode = (0x2f :: 0x2a :: t.ns ++ [0]) ++ 0x2a ::
          (t.db ++ 0 :: 0x2a :: (t.tb ++ 0 :: 0x2a :: (t.id ++ [0]))) := by
        simp [Thing.encode]
      have hlen : t.ns.length + 3 =
          (0x2f :: 0x2a :: t.ns ++ [0] : Bytes).length := by
        simp
        try omega
      rw [he, hlen, getD_append_len] at hc
      rw [he, hlen, set_append_len]
      simp only [List.cons_append, List.append_assoc, List.singleton_append]
      simp [Thing.decode, expectByte, takeField_append hns, hc]
    · have he : t.encode = (0x2f :: 0x2a :: t.ns ++ 0 :: 0x2a ::
            (t.db ++ [0])) ++ 0x2a ::
          (t.tb ++ 0 :: 0x2a :: (t.id ++ [0])) := by
        simp [Thing.encode]
      have hlen : t.ns.length + t.db.length + 5 =
          (0x2f :: 0x2a :: t.ns ++ 0 :: 0x2a ::
            (t.db ++ [0]) : Bytes).length := by
        simp
        try omega
      rw [he, hlen, getD_append_len] at hc
      rw [he, hlen, set_append_len]
      simp only [List.cons_append, List.append_assoc, List.singleton_append]
      simp [Thing.decode, expectByte, takeField_append hns,
        takeField_append hdb, hc]
    · have he : t.encode = (0x2f :: 0x2a :: t.ns ++ 0 :: 0x2a ::
            (t.db ++ 0 :: 0x2a :: (t.tb ++ [0]))) ++ 0x2a ::
          (t.id ++ [0]) := by
        simp [Thing.encode]
      have hlen : t.ns.length + t.db.length + t.tb.length + 7 =
          (0x2f :: 0x2a :: t.ns ++ 0 :: 0x2a ::
            (t.db ++ 0 :: 0x2a :: (t.tb ++ [0])) : Bytes).length := by
        simp
        try omega
      rw [he, hlen, getD_append_len] at hc
      rw [he, hlen, set_append_len]
      simp only [List.cons_append, List.append_assoc, List.singleton_append]
      simp [Thing.decode, expectByte, takeField_append hns,
        takeField_append hdb, takeField_append htb, hc]

/-- Concrete instance of `C6` at the Thing `("a","a","a","a")`: the
truncation to 5 bytes fails to decode, and flipping the leading `0x2f`
marker to `0x2e` fails to decode. -/
theorem thing_decode_rejects_corruption_witness :
    ValidThing ⟨[0x61], [0x61], [0x61], [0x61]⟩ ∧
      5 < (Thing.encode ⟨[0x61], [0x61], [0x61], [0x61]⟩).length ∧
      0 ∈ markerPositions ⟨[0x61], [0x61], [0x61], [0x61]⟩ ∧
      (0x2e : Nat) ≠
        (Thing.encode ⟨[0x61], [0x61], [0x61], [0x61]⟩).getD 0 0 ∧
      Thing.decode ((Thing.encode ⟨[0x61], [0x61], [0x61], [0x61]⟩).take 5) =
        none ∧
      Thing.decode ((Thing.encode ⟨[0x61], [0x61], [0x61], [0x61]⟩).set
        0 0x2e) = none :=
  ⟨by decide, by decide, by decide, by decide,
    (thing_decode_rejects_corruption ⟨[0x61], [0x61], [0x61], [0x61]⟩
      (by decide)).1 5 (by decide),
    (thing_decode_rejects_corruption ⟨[0x61], [0x61], [0x61], [0x61]⟩
      (by decide)).2 0 (by decide) 0x2e (by decide)⟩

theorem lex_append_right (x : Bytes) {r1 r2 : Bytes}
    (h : List.Lex (· < ·) r1 r2) :
    List.Lex (· < ·) (x ++ r1) (x ++ r2) := by
  induction x with
  | nil => exact h
  | cons a x ih => exact List.Lex.cons ih

/-- Appending the terminator and arbitrary tails preserves strict
lexicographic order of nul-free fields. -/
theorem lex_term : ∀ {a b : Bytes}, List.Lex (· < ·) a b →
    (∀ c ∈ b, 0 < c) → ∀ r1 r2 : Bytes,
    List.Lex (· < ·) (a ++ 0 :: r1) (b ++ 0 :: r2) := by
  intro a b h
  induction h with
  | nil =>
    intro hb r1 r2
    exact List.Lex.rel (hb _ (List.mem_cons_self _ _))
  | @cons a l1 l2 h ih =>
    intro hb r1 r2
    exact List.Lex.cons (ih (fun c hc => hb c (List.mem_cons_of_mem a hc)) r1 r2)
  | rel h =>
    intro hb r1 r2
    exact List.Lex.rel h

theorem validField_pos {s : Bytes} (h : ValidField s) : ∀ b ∈ s, 0 < b :=
  fun b hb => (h b hb).1

/-- `C2`: encoding is order-preserving — tuple order on
(namespace, database, table, id) implies byte-lexicographic order on the
encoded keys. -/
theorem thing_encode_order_preserving (t1 t2 : Thing)
    (_h1 : ValidThing t1) (h2 : ValidThing t2) (hlt : t1.tupleLt t2) :
    bytesLt t1.encode t2.encode := by
  obtain ⟨hns2, hdb2, htb2, hid2, -, -, -, -, -, -⟩ := h2
  unfold bytesLt Thing.encode
  rcases hlt with hns | ⟨ens, hdb | ⟨edb, htb | ⟨etb, hid⟩⟩⟩
  · exact List.Lex.cons (List.Lex.cons
      (lex_term hns (validField_pos hns2) _ _))
  · rw [ens]
    refine List.Lex.cons (List.Lex.cons (lex_append_right t2.ns ?_))
    refine List.Lex.cons (List.Lex.cons
      (lex_term hdb (validField_pos hdb2) _ _))
  · rw [ens, edb]
    refine List.Lex.cons (List.Lex.cons (lex_append_right t2.ns ?_))
    refine List.Lex.cons (List.Lex.cons (lex_append_right t2.db ?_))
    refine List.Lex.cons (List.Lex.cons
      (lex_term htb (validField_pos htb2) _ _))
  · rw [ens, edb, etb]
    refine List.Lex.cons (List.Lex.cons (lex_append_right t2.ns ?_))
    refine List.Lex.cons (List.Lex.cons (lex_append_right t2.db ?_))
    refine List.Lex.cons (List.Lex.cons (lex_append_right t2.tb ?_))
    refine List.Lex.cons (List.Lex.cons ?_)
    exact lex_term hid (validField_pos hid2) [] []

/-- Concrete instance of `C2`: two Things equal except for the id
(`"a" < "b"`, bytes `0x61 < 0x62`), whose encodings compare in the same
direction. -/
theorem thing_encode_order_preserving_witness :
    ValidThing ⟨[0x61], [0x61], [0x61], [0x61]⟩ ∧
      ValidThing ⟨[0x61], [0x61], [0x61], [0x62]⟩ ∧
      Thing.tupleLt ⟨[0x61], [0x61], [0x61], [0x61]⟩
        ⟨[0x61], [0x61], [0x61], [0x62]⟩ ∧
      bytesLt (Thing.encode ⟨[0x61], [0x61], [0x61], [0x61]⟩)
        (Thing.encode ⟨[0x61], [0x61], [0x61], [0x62]⟩) :=
  ⟨by decide, by decide,
    Or.inr ⟨rfl, Or.inr ⟨rfl, Or.inr ⟨rfl, List.Lex.rel (by decide)⟩⟩⟩,
    thing_encode_order_preserving
      ⟨[0x61], [0x61], [0x61], [0x61]⟩ ⟨[0x61], [0x61], [0x61], [0x62]⟩
      (by decide) (by decide)
      (Or.inr ⟨rfl, Or.inr ⟨rfl, Or.inr ⟨rfl, List.Lex.rel (by decide)⟩⟩⟩)⟩

/-- Concrete instance of `C1` at the Thing `("test","test","test","test")`
from the repository's own unit test (`0x74 0x65 0x73 0x74` is "test"). -/
theorem thing_encode_roundtrip_and_injective_witness :
    ValidThing ⟨[0x74, 0x65, 0x73, 0x74], [0x74, 0x65, 0x73, 0x74],
        [0x74, 0x65, 0x73, 0x74], [0x74, 0x65, 0x73, 0x74]⟩ ∧
      Thing.decode (Thing.encode ⟨[0x74, 0x65, 0x73, 0x74],
          [0x74, 0x65, 0x73, 0x74], [0x74, 0x65, 0x73, 0x74],
          [0x74, 0x65, 0x73, 0x74]⟩) =
        some ⟨[0x74, 0x65, 0x73, 0x74], [0x74, 0x65, 0x73, 0x74],
          [0x74, 0x65, 0x73, 0x74], [0x74, 0x65, 0x73, 0x74]⟩ :=
  ⟨by decide,
    (thing_encode_roundtrip_and_injective
      ⟨[0x74, 0x65, 0x73, 0x74], [0x74, 0x65, 0x73, 0x74],
        [0x74, 0x65, 0x73, 0x74], [0x74, 0x65, 0x73, 0x74]⟩
      ⟨[0x74, 0x65, 0x73, 0x74], [0x74, 0x65, 0x73, 0x74],
        [0x74, 0x65, 0x73, 0x74], [0x74, 0x65, 0x73, 0x74]⟩
      ⟨[0x74, 0x65, 0x73, 0x74], [0x74, 0x65, 0x73, 0x74],
        [0x74, 0x65, 0x73, 0x74], [0x74, 0x65, 0x73, 0x74]⟩
      (by decide) (by decide) (by decide)).1⟩

/-- `C9` counterexample: `impl From<Vec<u8>> for Thing` unwraps
`Thing::decode`, and decoding the empty byte sequence fails, so converting
`vec![]` to a Thing panics — the conversion does not terminate without
panicking on every input byte sequence. -/
theorem thing_from_vec_panics_on_empty :
    (thingFromVec []).isSome = false := rfl

/-- `C9` (amended): `Thing::encode` and `Thing::decode` themselves return
typed results — encoding is total (so `From<Thing> for Vec<u8>` never
panics) and decoding a nul-free Thing's encoding succeeds; the
`From<Vec<u8>> for Thing` unwrap can only panic on byte sequences that are
not exactly the encoding of some Thing. -/
theorem thing_conversions_typed (t : Thing) (h : NulFreeThing t) :
    thingFromVec (vecFromThing t) = some t ∧
      (∀ (v : Bytes) (u : Thing), thingFromVec v = some u →
        v = vecFromThing u) := by
  constructor
  · have := decode_encode_append t h []
    simpa [thingFromVec, vecFromThing] using this
  · intro v u hv
    exact (decode_sound hv).1

/-- Concrete instance of the amended `C9` at the Thing `("a","a","a","a")`:
the byte round trip through both `From` conversions succeeds without
panicking. -/
theorem thing_conversions_typed_witness :
    NulFreeThing ⟨[0x61], [0x61], [0x61], [0x61]⟩ ∧
      thingFromVec (vecFromThing ⟨[0x61], [0x61], [0x61], [0x61]⟩) =
        some ⟨[0x61], [0x61], [0x61], [0x61]⟩ :=
  ⟨by decide,
    (thing_conversions_typed ⟨[0x61], [0x61], [0x61], [0x61]⟩
      (by decide)).1⟩

end Key

namespace Sql

theorem splitOnceColon_eq_of_mem : ∀ {l : List Char}, ':' ∈ l →
    splitOnceColon l =
      some (l.takeWhile (· ≠ ':'), (l.dropWhile (· ≠ ':')).tail) := by
  intro l h
  induction l with
  | nil => cases h
  | cons c rest ih =>
    by_cases hc : c = ':'
    · subst hc
      simp [splitOnceColon, List.takeWhile_cons, List.dropWhile_cons]
    · have hmem : ':' ∈ rest := by
        rcases List.mem_cons.mp h with h' | h'
        · exact absurd h'.symm hc
        · exact h'
      simp [splitOnceColon, hc, ih hmem, List.takeWhile_cons,
        List.dropWhile_cons]

end Sql

namespace Api

/-- `C3`: `with_range` on a `Table` succeeds for every range, yielding the
scan descriptor with exactly that table name and the range's two bounds;
on each of the four other variants it always fails with the matching
variant-specific error, regardless of the range value. -/
theorem with_range_legality :
    (∀ (t : Sql.Table) (r : Range Sql.Id),
      (Resource.Table t).with_range r =
        .ok (.range ⟨t.name, r.start, r.«end»⟩)) ∧
      (∀ (x : Sql.Thing) (r : Range Sql.Id),
        (Resource.RecordId x).with_range r =
          .error (.RangeOnRecordId x)) ∧
      (∀ (o : Sql.Object) (r : Range Sql.Id),
        (Resource.Object o).with_range r = .error (.RangeOnObject o)) ∧
      (∀ (a : Sql.Array) (r : Range Sql.Id),
        (Resource.Array a).with_range r = .error (.RangeOnArray a)) ∧
      (∀ (e : Sql.Edges) (r : Range Sql.Id),
        (Resource.Edges e).with_range r = .error (.RangeOnEdges e)) :=
  ⟨fun _ _ => rfl, fun _ _ => rfl, fun _ _ => rfl, fun _ _ => rfl,
    fun _ _ => rfl⟩

/-- `C4` counterexample: `"a:"` contains a colon and fails record-address
parsing (empty id part), yet the general `From<&str>` conversion does not
fail with `TableColonId` — it is infallible and yields the `Table`
resource `Table("a:")`. -/
theorem resource_from_str_colon_yields_table :
    (':' ∈ "a:".toList) ∧ Sql.thingParse "a:" = none ∧
      Resource.fromStr "a:" = .Table ⟨"a:"⟩ :=
  ⟨by decide, rfl, rfl⟩

/-- `C4` (amended): the general string conversions (`From<&str>`,
`From<String>`, `From<&String>`) first test the string against
record-address syntax — on success the result is `RecordId`; otherwise the
conversion cannot fail: it returns `Table` carrying the string unchanged,
even when the string contains a colon.  The `TableColonId` rejection
belongs only to the bare-table (`IntoResource<Vec<R>>`) conversions. -/
theorem resource_from_str_dispatch (s : String) (th : Sql.Thing) :
    (Sql.thingParse s = some th →
      Resource.fromStr s = .RecordId th ∧
        Resource.fromString s = .RecordId th ∧
        Resource.fromStringRef s = .RecordId th) ∧
      (Sql.thingParse s = none →
        Resource.fromStr s = .Table ⟨s⟩ ∧
          Resource.fromString s = .Table ⟨s⟩ ∧
          Resource.fromStringRef s = .Table ⟨s⟩) := by
  constructor
  · intro hp
    refine ⟨?_, ?_, ?_⟩ <;>
      simp [Resource.fromStr, Resource.fromString, Resource.fromStringRef,
        hp]
  · intro hp
    refine ⟨?_, ?_, ?_⟩ <;>
      simp [Resource.fromStr, Resource.fromString, Resource.fromStringRef,
        hp]

/-- Concrete instance of the amended `C4`: `"a:b"` parses as a record
address and converts to `RecordId`; `"a:"` fails to parse and converts to
`Table("a:")`. -/
theorem resource_from_str_dispatch_witness :
    Sql.thingParse "a:b" = some ⟨"a", .Text "b"⟩ ∧
      Resource.fromStr "a:b" = .RecordId ⟨"a", .Text "b"⟩ ∧
      Sql.thingParse "a:" = none ∧
      Resource.fromStr "a:" = .Table ⟨"a:"⟩ :=
  ⟨rfl,
    ((resource_from_str_dispatch "a:b" ⟨"a", .Text "b"⟩).1 rfl).1,
    rfl,
    ((resource_from_str_dispatch "a:" ⟨"a", .Text "b"⟩).2 rfl).1⟩

/-- `C5`: the bare-table string conversions (`IntoResource<Vec<R>>` for
`&str` and `String`) reject `"a:b"` with `TableColonId{table:"a", id:"b"}`
and accept the colon-free `"ab"` as `Table("ab")`, carrying the string
unchanged. -/
theorem bare_table_conversion_colon_cases :
    strIntoResourceVec "a:b" = .error (.TableColonId "a" "b") ∧
      stringIntoResourceVec "a:b" = .error (.TableColonId "a" "b") ∧
      strIntoResourceVec "ab" = .ok (.Table ⟨"ab"⟩) ∧
      stringIntoResourceVec "ab" = .ok (.Table ⟨"ab"⟩) :=
  ⟨rfl, rfl, rfl, rfl⟩

/-- `C10`: for every input string containing a colon, the bare-table
conversions fail with `TableColonId` whose table field is exactly the
prefix before the first colon and whose id field is the entire remainder
after it. -/
theorem blacklist_colon_first_split (s : String) (h : ':' ∈ s.toList) :
    strIntoResourceVec s =
        .error (.TableColonId (String.mk (s.toList.takeWhile (· ≠ ':')))
          (String.mk ((s.toList.dropWhile (· ≠ ':')).tail))) ∧
      stringIntoResourceVec s =
        .error (.TableColonId (String.mk (s.toList.takeWhile (· ≠ ':')))
          (String.mk ((s.toList.dropWhile (· ≠ ':')).tail))) := by
  have hsplit := Sql.splitOnceColon_eq_of_mem h
  constructor
  · unfold strIntoResourceVec blacklist_colon
    rw [if_pos h, hsplit]
  · unfold stringIntoResourceVec blacklist_colon
    rw [if_pos h, hsplit]

/-- Concrete instance of `C10` at `"a:b:c"`: the table field is `"a"` (the
prefix before the first colon) and the id field is `"b:c"` (the entire
remainder, its own colon included). -/
theorem blacklist_colon_first_split_witness :
    (':' ∈ "a:b:c".toList) ∧
      strIntoResourceVec "a:b:c" = .error (.TableColonId "a" "b:c") :=
  ⟨by decide,
    ((blacklist_colon_first_split "a:b:c" (by decide)).1).trans (by rfl)⟩

/-- `C8`: the three claimed bound-pair conversions into `Range<Id>`:
`a..b` becomes `{Included a, Excluded b}`, `a..=b` becomes
`{Included a, Included b}`, and the full range `..` becomes
`{Unbounded, Unbounded}`, for every start/end convertible to `Id`. -/
theorem range_bound_conversion :
    (∀ (α : Type) (f : α → Sql.Id) (a b : α),
      Range.fromOpsRange f ⟨a, b⟩ =
        ⟨.Included (f a), .Excluded (f b)⟩) ∧
      (∀ (α : Type) (f : α → Sql.Id) (a b : α),
        Range.fromOpsRangeInclusive f ⟨a, b⟩ =
          ⟨.Included (f a), .Included (f b)⟩) ∧
      Range.fromOpsRangeFull ⟨⟩ = ⟨.Unbounded, .Unbounded⟩ :=
  ⟨fun _ _ _ _ => rfl, fun _ _ _ _ => rfl, rfl⟩

end Api

namespace Ctx

/-- `C7`: once a `cancel()` appears in the operation sequence over the
shared flag — issued by any handle, clones included, since every handle
references the same shared flag — every later load observes
`cancelled = true` whatever operations happen in between, and inserting a
further `cancel()` leaves the observable flag state unchanged
(idempotence). -/
theorem canceller_cancel_idempotent_and_visible (s : Bool)
    (pre mid post : List Op) :
    applyOp (runFlag s (pre ++ Op.cancel :: mid)) Op.load = true ∧
      runFlag s (pre ++ Op.cancel :: Op.cancel :: post) =
        runFlag s (pre ++ Op.cancel :: post) := by
  have hrun : ∀ ops : List Op, runFlag true ops = true := by
    intro ops
    induction ops with
    | nil => rfl
    | cons op ops ih =>
      cases op <;> simpa [runFlag, applyOp, Canceller.cancel] using ih
  constructor
  · show applyOp (List.foldl applyOp s (pre ++ Op.cancel :: mid))
      Op.load = true
    rw [List.foldl_append]
    simp only [List.foldl_cons]
    have : List.foldl applyOp
        (applyOp (List.foldl applyOp s pre) Op.cancel) mid = true := by
      simpa [applyOp, Canceller.cancel, runFlag] using hrun mid
    rw [this]
    rfl
  · show List.foldl applyOp s (pre ++ Op.cancel :: Op.cancel :: post) =
      List.foldl applyOp s (pre ++ Op.cancel :: post)
    rw [List.foldl_append, List.foldl_append]
    simp [List.foldl_cons, applyOp, Canceller.cancel]

end Ctx

end SDB
